import Mathlib

/-!
Verification of the log-file analyzer (`src/analyzer.py`): a shallow embedding
of the record model, the text-line parser, the loader, the filter stage, and
the two detectors, together with theorems settling the specification claims.
Strings are modelled as lists of characters.
-/

namespace LogAnalyzer

abbrev Str := List Char

/-- ASCII whitespace, as matched by the regex class `\s` and excluded by `\S`
(and stripped by `str.strip`). -/
def isPySpace (c : Char) : Bool :=
  c = ' ' || c = '\t' || c = '\n' || c = '\r' || c = '\x0b' || c = '\x0c'

/-- A `datetime` value with second resolution, field for field. -/
structure DateTime where
  year : Nat
  month : Nat
  day : Nat
  hour : Nat
  minute : Nat
  second : Nat
deriving DecidableEq, Repr

/-- A calendar date, as returned by `datetime.date()`. -/
structure Date where
  year : Nat
  month : Nat
  day : Nat
deriving DecidableEq, Repr

/-- `datetime.date()`: truncate a timestamp to its calendar day. -/
def DateTime.date (t : DateTime) : Date := ⟨t.year, t.month, t.day⟩

/-- `datetime` ordering: lexicographic on the six fields. -/
def dtLe (a b : DateTime) : Bool :=
  decide (a.year < b.year ∨ (a.year = b.year ∧ (a.month < b.month ∨ (a.month = b.month ∧
    (a.day < b.day ∨ (a.day = b.day ∧ (a.hour < b.hour ∨ (a.hour = b.hour ∧
      (a.minute < b.minute ∨ (a.minute = b.minute ∧ a.second ≤ b.second))))))))))

/-- Gregorian leap-year test. -/
def isLeap (y : Nat) : Bool := (y % 4 == 0 && y % 100 != 0) || y % 400 == 0

/-- Number of days in a month (months numbered 1..12). -/
def daysInMonth (y m : Nat) : Nat :=
  if m = 2 then (if isLeap y then 29 else 28)
  else if m = 4 ∨ m = 6 ∨ m = 9 ∨ m = 11 then 30
  else 31

/-- Days in all years strictly before year `y` (proleptic Gregorian, year 1 first). -/
def daysBeforeYear (y : Nat) : Nat :=
  365 * (y - 1) + (y - 1) / 4 + (y - 1) / 400 - (y - 1) / 100

/-- Days in the months of year `y` strictly before month `m`. -/
def daysBeforeMonth (y m : Nat) : Nat :=
  (match m with
    | 1 => 0 | 2 => 31 | 3 => 59 | 4 => 90 | 5 => 120 | 6 => 151
    | 7 => 181 | 8 => 212 | 9 => 243 | 10 => 273 | 11 => 304 | _ => 334) +
  (if 2 < m && isLeap y then 1 else 0)

/-- A timestamp as a count of seconds; differences of timestamps agree with
`timedelta.total_seconds()` on valid datetimes. -/
def DateTime.toSecs (t : DateTime) : Nat :=
  (((daysBeforeYear t.year + daysBeforeMonth t.year t.month + (t.day - 1)) * 24
      + t.hour) * 60 + t.minute) * 60 + t.second

/-- The canonical log record: the dict built by the parser / loader, with all
five fields present. -/
structure Record where
  timestamp : DateTime
  level : Str
  service : Str
  host : Str
  message : Str
deriving DecidableEq, Repr

/-- The level string `"ERROR"`. -/
def ERROR : Str := "ERROR".toList

/-! ## Filter stage (`filter_logs`) -/

/-- Python truthiness of an optional string: `None` and `""` are falsy. -/
def pyTruthy : Option Str → Bool
  | none => false
  | some s => !s.isEmpty

/-- `filter_logs(logs, service=None, host=None)`: list comprehension keeping
`log` iff `(not service or log["service"] == service) and
(not host or log["host"] == host)`. -/
def filter_logs (logs : List Record) (service host : Option Str) : List Record :=
  logs.filter fun log =>
    (!pyTruthy service || log.service == service.getD []) &&
    (!pyTruthy host || log.host == host.getD [])

/-- Spec-side keep condition: a record passes an optional predicate iff the
predicate is absent or equals the field (with the amendment that a supplied
empty string imposes no constraint). -/
def specKeep (pred : Option Str) (v : Str) : Bool :=
  match pred with
  | none => true
  | some p => if p = [] then true else v == p

/-! ## Burst detector (`detect_burst_errors`) -/

/-- `sorted([log["timestamp"] for log in logs if log["level"] == "ERROR"])`. -/
def error_times (logs : List Record) : List DateTime :=
  ((logs.filter fun log => log.level == ERROR).map fun log => log.timestamp).mergeSort dtLe

/-- The window test `(error_times[i+4] - error_times[i]).total_seconds() <= 60`. -/
def burstCond (ets : List DateTime) (i : Nat) : Bool :=
  ((ets.getD (i + 4) ⟨0, 0, 0, 0, 0, 0⟩).toSecs : Int)
    - ((ets.getD i ⟨0, 0, 0, 0, 0, 0⟩).toSecs : Int) ≤ 60

/-- `detect_burst_errors`: the `for i in range(len(error_times) - 4)` loop,
appending the slice `error_times[i:i+5]` whenever the window test passes. -/
def detect_burst_errors (logs : List Record) : List (List DateTime) :=
  let ets := error_times logs
  (List.range (ets.length - 4)).foldl
    (fun bursts i =>
      if burstCond ets i then bursts ++ [(ets.drop i).take 5] else bursts) []

/-- Spec-side description of the burst detector: over the ascending starting
indices, keep exactly those whose 5-window spans at most 60 seconds, and emit
the corresponding slices. -/
def burstSpec (logs : List Record) : List (List DateTime) :=
  let ets := error_times logs
  ((List.range (ets.length - 4)).filter (burstCond ets)).map
    fun i => (ets.drop i).take 5

/-! ## Recurrence detector (`detect_long_running_issues`) -/

/-- `set.add`: adjoin a date to a set of dates (modelled as a duplicate-free
list in insertion order). -/
def addDate (days : List Date) (d : Date) : List Date :=
  if d ∈ days then days else days ++ [d]

/-- One `defaultdict(set)` update `error_days[msg].add(d)`: the dict is an
association list in insertion order. -/
def updateDays : List (Str × List Date) → Str → Date → List (Str × List Date)
  | [], msg, d => [(msg, [d])]
  | (k, ds) :: rest, msg, d =>
    if k = msg then (k, addDate ds d) :: rest else (k, ds) :: updateDays rest msg d

/-- The `error_days` accumulation loop of `detect_long_running_issues`. -/
def error_days (logs : List Record) : List (Str × List Date) :=
  logs.foldl
    (fun m log =>
      if log.level == ERROR then updateDays m log.message log.timestamp.date else m)
    []

/-- `detect_long_running_issues`: keep the messages whose date set has more
than one element. -/
def detect_long_running_issues (logs : List Record) : List (Str × List Date) :=
  (error_days logs).filter fun p => 1 < p.2.length

/-- Dictionary lookup in the association-list model. -/
def lookupDays : List (Str × List Date) → Str → Option (List Date)
  | [], _ => none
  | (k, ds) :: rest, msg => if k = msg then some ds else lookupDays rest msg

/-- Spec-side: the dates (with multiplicity, in input order) of the
ERROR-level records carrying message `m`. -/
def errDatesOf (logs : List Record) (m : Str) : List Date :=
  (logs.filter fun r => r.level == ERROR && r.message == m).map
    fun r => r.timestamp.date

/-- The key list of the association-list dictionary model. -/
def keysOf (acc : List (Str × List Date)) : List Str := acc.map Prod.fst

/-- Relation between a dictionary entry (`none` when the key is absent) and
the multiset of dates it stands for: an absent key means no dates, a present
one holds exactly the distinct dates. -/
def DaysRel (od : Option (List Date)) (l : List Date) : Prop :=
  match od with
  | none => l = []
  | some ds => ds.Nodup ∧ ∀ x, x ∈ ds ↔ x ∈ l

/-! ## Record parser (`parse_text_log`) -/

/-- The regex class `\S`. -/
def notSpace (c : Char) : Bool := !isPySpace c

/-- One `\S+` group: the maximal nonempty run of non-whitespace characters at
the head of the input, together with the remainder. -/
def takeTok (cs : Str) : Option (Str × Str) :=
  if cs.takeWhile notSpace = [] then none
  else some (cs.takeWhile notSpace, cs.dropWhile notSpace)

/-- One literal `' '` of the pattern. -/
def expectSpace (r : Str) : Option Str :=
  match r with
  | c :: rest => if c = ' ' then some rest else none
  | [] => none

/-- The five capture groups of the parser's regex. -/
structure Groups where
  g1 : Str
  g2 : Str
  g3 : Str
  g4 : Str
  g5 : Str
deriving DecidableEq, Repr

/-- `re.match(r"(\S+ \S+) (\S+) (\S+) (\S+) (.+)", line)`: five maximal
non-whitespace tokens separated by single spaces, then a greedy nonempty `.+`
(any characters up to a newline or the end of input). -/
def pyMatch (cs : Str) : Option Groups :=
  (takeTok cs).bind fun s1 =>
  (expectSpace s1.2).bind fun r2 =>
  (takeTok r2).bind fun s2 =>
  (expectSpace s2.2).bind fun r4 =>
  (takeTok r4).bind fun s3 =>
  (expectSpace s3.2).bind fun r6 =>
  (takeTok r6).bind fun s4 =>
  (expectSpace s4.2).bind fun r8 =>
  (takeTok r8).bind fun s5 =>
  (expectSpace s5.2).bind fun r10 =>
  let m := r10.takeWhile fun c => c != '\n'
  if m = [] then none else some ⟨s1.1 ++ ' ' :: s2.1, s3.1, s4.1, s5.1, m⟩

/-- Numeric value of a digit character. -/
def digitVal (c : Char) : Nat := c.toNat - '0'.toNat

/-- The regex class `\d` (ASCII). -/
def isDig (c : Char) : Bool := '0' ≤ c && c ≤ '9'

/-- A 1-or-2-digit numeric field of `strptime` (`%m`, `%d`, `%H`, `%M`,
`%S`): greedily two digits when two are available, else one. -/
def take2Digits : Str → Option (Nat × Str)
  | [] => none
  | c :: rest =>
    if isDig c then
      match rest with
      | c2 :: rest2 =>
        if isDig c2 then some (10 * digitVal c + digitVal c2, rest2)
        else some (digitVal c, c2 :: rest2)
      | [] => some (digitVal c, [])
    else none

/-- The exactly-four-digit `%Y` field. -/
def take4Digits : Str → Option (Nat × Str)
  | c1 :: c2 :: c3 :: c4 :: rest =>
    if isDig c1 && isDig c2 && isDig c3 && isDig c4 then
      some (((digitVal c1 * 10 + digitVal c2) * 10 + digitVal c3) * 10 + digitVal c4, rest)
    else none
  | _ => none

/-- One literal separator character of the format. -/
def expectChar (e : Char) : Str → Option Str
  | c :: rest => if c = e then some rest else none
  | [] => none

/-- A literal whitespace in a `strptime` format matches one or more
whitespace characters. -/
def skipWs1 : Str → Option Str
  | c :: rest => if isPySpace c then some (rest.dropWhile isPySpace) else none
  | [] => none

/-- The field skeleton of `strptime(s, "%Y-%m-%d %H:%M:%S")`: the whole
string must be consumed. -/
def strptimeRaw (cs : Str) : Option (Nat × Nat × Nat × Nat × Nat × Nat) := do
  let (y, r) ← take4Digits cs
  let r ← expectChar '-' r
  let (mo, r) ← take2Digits r
  let r ← expectChar '-' r
  let (d, r) ← take2Digits r
  let r ← skipWs1 r
  let (h, r) ← take2Digits r
  let r ← expectChar ':' r
  let (mi, r) ← take2Digits r
  let r ← expectChar ':' r
  let (s, r) ← take2Digits r
  if r = [] then some (y, mo, d, h, mi, s) else none

/-- The `datetime` constructor's range validation. -/
def dtValid (y mo d h mi s : Nat) : Bool :=
  1 ≤ y && y ≤ 9999 && 1 ≤ mo && mo ≤ 12 && 1 ≤ d && d ≤ daysInMonth y mo &&
  h ≤ 23 && mi ≤ 59 && s ≤ 59

/-- `datetime.strptime(s, "%Y-%m-%d %H:%M:%S")`, with the constructor's
validation folded in; failures become `none` (the caller catches
`ValueError`). -/
def strptime (cs : Str) : Option DateTime :=
  (strptimeRaw cs).bind fun f =>
    if dtValid f.1 f.2.1 f.2.2.1 f.2.2.2.1 f.2.2.2.2.1 f.2.2.2.2.2 then
      some ⟨f.1, f.2.1, f.2.2.1, f.2.2.2.1, f.2.2.2.2.1, f.2.2.2.2.2⟩
    else none

/-- `parse_text_log(line)`: regex match, then timestamp decoding; `None` when
either fails. -/
def parse_text_log (cs : Str) : Option Record :=
  match pyMatch cs with
  | none => none
  | some g =>
    match strptime g.g1 with
    | none => none
    | some ts => some ⟨ts, g.g2, g.g3, g.g4, g.g5⟩

/-- A single grammar token: nonempty and whitespace-free. -/
def IsTok (t : Str) : Prop := t ≠ [] ∧ ∀ c ∈ t, isPySpace c = false

instance instDecidableIsTok (t : Str) : Decidable (IsTok t) :=
  decidable_of_iff (t ≠ [] ∧ ∀ c ∈ t, isPySpace c = false) Iff.rfl

/-- Spec-side decomposition of an input into the token shape
`<date> <time> <level> <service> <host> <message...>`: five single-space
separated whitespace-free tokens, then a nonempty newline-free message
extending to the end of the input's first line (`rest` is empty or starts
with a newline, mirroring that the regex matches the line prefix). -/
def Decomp (cs t1 t2 lvl svc hst msg rest : Str) : Prop :=
  IsTok t1 ∧ IsTok t2 ∧ IsTok lvl ∧ IsTok svc ∧ IsTok hst ∧
  msg ≠ [] ∧ '\n' ∉ msg ∧ (rest = [] ∨ ∃ r', rest = '\n' :: r') ∧
  cs = t1 ++ ' ' :: t2 ++ ' ' :: lvl ++ ' ' :: svc ++ ' ' :: hst ++ ' ' :: (msg ++ rest)

/-- A two-digit zero-padded field, per the spec's words. -/
def take2Exact : Str → Option (Nat × Str)
  | c1 :: c2 :: rest =>
    if isDig c1 && isDig c2 then some (10 * digitVal c1 + digitVal c2, rest) else none
  | _ => none

/-- Modelled from the spec's words, for comparison with the code's parser:
the fixed layout `YYYY-MM-DD HH:MM:SS` with a four-digit year and zero-padded
two-digit month, day, hour, minute and second, single literal separators, and
the same range validation. -/
def strptimePadded (cs : Str) : Option DateTime := do
  let (y, r) ← take4Digits cs
  let r ← expectChar '-' r
  let (mo, r) ← take2Exact r
  let r ← expectChar '-' r
  let (d, r) ← take2Exact r
  let r ← expectChar ' ' r
  let (h, r) ← take2Exact r
  let r ← expectChar ':' r
  let (mi, r) ← take2Exact r
  let r ← expectChar ':' r
  let (s, r) ← take2Exact r
  if r = [] ∧ dtValid y mo d h mi s then some ⟨y, mo, d, h, mi, s⟩ else none

/-- Zero-padded rendering of a two-digit field. -/
def pad2 (n : Nat) : Str := [Nat.digitChar (n / 10), Nat.digitChar (n % 10)]

/-- Zero-padded rendering of a four-digit field. -/
def pad4 (n : Nat) : Str :=
  [Nat.digitChar (n / 1000), Nat.digitChar (n / 100 % 10),
   Nat.digitChar (n / 10 % 10), Nat.digitChar (n % 10)]

/-- The `<date>` token `YYYY-MM-DD`. -/
def dateTok (y mo d : Nat) : Str := pad4 y ++ '-' :: pad2 mo ++ '-' :: pad2 d

/-- The `<time>` token `HH:MM:SS`. -/
def timeTok (h mi s : Nat) : Str := pad2 h ++ ':' :: pad2 mi ++ ':' :: pad2 s

/-! ## Log loader (`read_logs`) -/

/-- A decoded JSON object, restricted to the keys the loader and detectors
touch; a key the object lacks is `none` (reading it raises `KeyError`). -/
structure JsonEntry where
  timestamp : Option Str
  level : Option Str
  service : Option Str
  host : Option Str
  message : Option Str
deriving DecidableEq, Repr

/-- A record as the loader builds it: the JSON path copies whatever keys the
entry has, so any field other than the decoded timestamp may be missing. -/
structure PRecord where
  timestamp : Option DateTime
  level : Option Str
  service : Option Str
  host : Option Str
  message : Option Str
deriving DecidableEq, Repr

/-- A parser record viewed as a loader record (all fields present). -/
def Record.toP (r : Record) : PRecord :=
  ⟨some r.timestamp, some r.level, some r.service, some r.host, some r.message⟩

/-- All five fields populated, the timestamp decoded. -/
def fullyValid (r : PRecord) : Bool :=
  r.timestamp.isSome && r.level.isSome && r.service.isSome &&
    r.host.isSome && r.message.isSome

/-- `log["timestamp"] = datetime.fromisoformat(log["timestamp"])` on one
entry: a missing key raises `KeyError`, an undecodable timestamp raises
`ValueError`; both abort the load. -/
def decodeEntry (isoDecode : Str → Option DateTime) (e : JsonEntry) :
    Except Str PRecord :=
  match e.timestamp with
  | none => .error "KeyError: timestamp".toList
  | some s =>
    match isoDecode s with
    | none => .error "ValueError: invalid isoformat string".toList
    | some dt => .ok ⟨some dt, e.level, e.service, e.host, e.message⟩

/-- The JSON loop: decode every entry, stopping at the first failure. -/
def decodeEntries (isoDecode : Str → Option DateTime) :
    List JsonEntry → Except Str (List PRecord)
  | [] => .ok []
  | e :: rest =>
    match decodeEntry isoDecode e with
    | .error msg => .error msg
    | .ok r =>
      match decodeEntries isoDecode rest with
      | .error msg => .error msg
      | .ok rs => .ok (r :: rs)

/-- `str.strip()` (ASCII whitespace). -/
def pyStrip (cs : Str) : Str :=
  ((cs.dropWhile isPySpace).reverse.dropWhile isPySpace).reverse

/-- The text loop: strip and parse each line, silently dropping failures. -/
def parseLines (lines : List Str) : List PRecord :=
  lines.filterMap fun line => (parse_text_log (pyStrip line)).map Record.toP

/-- `read_logs(json_path, log_path)` over source contents: a source is
`none` when its path is falsy (not supplied), `some none` when the path
names no existing file (skipped with a warning), and `some (some contents)`
when the file is read. The timestamp interchange decoder
(`datetime.fromisoformat`, a library collaborator) is a parameter. -/
def read_logs (isoDecode : Str → Option DateTime)
    (jsonSrc : Option (Option (List JsonEntry)))
    (textSrc : Option (Option (List Str))) : Except Str (List PRecord) :=
  if jsonSrc = none ∧ textSrc = none then
    .error "At least one input file must be provided".toList
  else
    match (match jsonSrc with
           | none => .ok []
           | some none => .ok []
           | some (some entries) => decodeEntries isoDecode entries :
            Except Str (List PRecord)) with
    | .error msg => .error msg
    | .ok js =>
      .ok (js ++
        match textSrc with
        | none => []
        | some none => []
        | some (some lines) => parseLines lines)

/-- A sample timestamp used in concrete evaluations. -/
def dt0 : DateTime := ⟨2025, 1, 1, 10, 0, 0⟩

/-- A sample fully-keyed JSON entry used in concrete evaluations. -/
def entry0 : JsonEntry :=
  ⟨some "2025-01-01T10:00:00".toList, some "INFO".toList, some "api".toList,
    some "host3".toList, some "ok".toList⟩

/-- A sample interchange decoder used in concrete evaluations. -/
def isoDec0 : Str → Option DateTime := fun _ => some dt0

/-- A sample record used in concrete evaluations. -/
def rec0 : Record :=
  ⟨dt0, "INFO".toList, "payment".toList, "host1".toList, "Payment failed".toList⟩

/-! ## General lemmas -/

theorem dtLe_trans (a b c : DateTime) : dtLe a b → dtLe b c → dtLe a c := by
  simp only [dtLe, decide_eq_true_eq]
  omega

theorem dtLe_total (a b : DateTime) : dtLe a b || dtLe b a := by
  simp only [dtLe, Bool.or_eq_true, decide_eq_true_eq]
  omega

theorem foldl_ite_append {α β : Type} (p : α → Bool) (f : α → β) :
    ∀ (l : List α) (acc : List β),
      l.foldl (fun a i => if p i then a ++ [f i] else a) acc = acc ++ (l.filter p).map f
  | [], acc => by simp
  | i :: l, acc => by
    cases hp : p i <;>
      simp [List.foldl_cons, hp, foldl_ite_append p f l, List.filter_cons]

/-! ## Parser lemmas -/

theorem takeWhile_all {p : Char → Bool} :
    ∀ l : Str, (∀ c ∈ l, p c = true) → l.takeWhile p = l
  | [], _ => rfl
  | c :: l, h => by
    have hc := h c (List.mem_cons_self _ _)
    simp [List.takeWhile_cons, hc,
      takeWhile_all l fun x hx => h x (List.mem_cons_of_mem _ hx)]

theorem takeWhile_append_stop {p : Char → Bool} (t : Str) (x : Char) (R : Str)
    (ht : ∀ c ∈ t, p c = true) (hx : p x = false) :
    (t ++ x :: R).takeWhile p = t ∧ (t ++ x :: R).dropWhile p = x :: R := by
  induction t with
  | nil => simp [List.takeWhile_cons, List.dropWhile_cons, hx]
  | cons c t ih =>
    have hc := ht c (List.mem_cons_self _ _)
    have := ih fun a ha => ht a (List.mem_cons_of_mem _ ha)
    simp [List.takeWhile_cons, List.dropWhile_cons, hc, this]

theorem dropWhile_head_false {p : Char → Bool} :
    ∀ (l : Str) (c : Char) (r' : Str), l.dropWhile p = c :: r' → p c = false
  | [], c, r', h => by simp at h
  | a :: l, c, r', h => by
    rw [List.dropWhile_cons] at h
    split at h
    · exact dropWhile_head_false l c r' h
    · rename_i ha
      cases h
      simpa using ha

theorem takeTok_complete {t : Str} (ht : IsTok t) (R : Str) :
    takeTok (t ++ ' ' :: R) = some (t, ' ' :: R) := by
  have hall : ∀ c ∈ t, notSpace c = true := fun c hc => by
    simp [notSpace, ht.2 c hc]
  have hsp : notSpace ' ' = false := by decide
  obtain ⟨htw, hdw⟩ := takeWhile_append_stop t ' ' R hall hsp
  simp [takeTok, htw, hdw, ht.1]

theorem takeTok_sound {cs t r : Str} (h : takeTok cs = some (t, r)) :
    cs = t ++ r ∧ IsTok t ∧ (r = [] ∨ ∃ c r', r = c :: r' ∧ isPySpace c = true) := by
  unfold takeTok at h
  split at h
  · exact absurd h (by simp)
  · rename_i hne
    injection h with h'
    injection h' with h1 h2
    subst h1; subst h2
    refine ⟨(List.takeWhile_append_dropWhile ..).symm, ⟨hne, ?_⟩, ?_⟩
    · intro c hc
      have := List.mem_takeWhile_imp hc
      simpa [notSpace] using this
    · cases hr : cs.dropWhile notSpace with
      | nil => exact Or.inl rfl
      | cons c r' =>
        refine Or.inr ⟨c, r', rfl, ?_⟩
        have := dropWhile_head_false cs c r' hr
        simpa [notSpace] using this

theorem expectSpace_cons (R : Str) : expectSpace (' ' :: R) = some R := by
  simp [expectSpace]

theorem expectSpace_sound {r r2 : Str} (h : expectSpace r = some r2) :
    r = ' ' :: r2 := by
  unfold expectSpace at h
  split at h
  · rename_i c rest
    split at h
    · rename_i hc
      injection h with h'
      subst hc; subst h'; rfl
    · exact absurd h (by simp)
  · exact absurd h (by simp)

theorem takeWhile_msg {msg rest : Str} (hnl : '\n' ∉ msg)
    (hrest : rest = [] ∨ ∃ r', rest = '\n' :: r') :
    (msg ++ rest).takeWhile (fun c => c != '\n') = msg := by
  have hall : ∀ c ∈ msg, (c != '\n') = true := fun c hc => by
    simp only [bne_iff_ne, ne_eq]
    exact fun e => hnl (e ▸ hc)
  rcases hrest with h | ⟨r', h⟩
  · subst h
    simpa using takeWhile_all msg hall
  · subst h
    exact (takeWhile_append_stop msg '\n' r' hall (by decide)).1

theorem pyMatch_complete {cs t1 t2 lvl svc hst msg rest : Str}
    (h : Decomp cs t1 t2 lvl svc hst msg rest) :
    pyMatch cs = some ⟨t1 ++ ' ' :: t2, lvl, svc, hst, msg⟩ := by
  obtain ⟨h1, h2, h3, h4, h5, hm, hnl, hrest, hcs⟩ := h
  subst hcs
  have hmsg' : (msg ++ rest).takeWhile (fun c => c != '\n') = msg :=
    takeWhile_msg hnl hrest
  simp only [List.cons_append, List.append_assoc]
  simp only [pyMatch, takeTok_complete h1, Option.some_bind, expectSpace_cons,
    takeTok_complete h2, takeTok_complete h3, takeTok_complete h4,
    takeTok_complete h5, hmsg', if_neg hm]

theorem pyMatch_sound {cs : Str} {g : Groups} (h : pyMatch cs = some g) :
    ∃ t1 t2 rest, Decomp cs t1 t2 g.g2 g.g3 g.g4 g.g5 rest ∧
      g.g1 = t1 ++ ' ' :: t2 := by
  simp only [pyMatch, Option.bind_eq_some] at h
  obtain ⟨⟨t1, r1⟩, h1, r2, h2, ⟨t2, r3⟩, h3, r4, h4, ⟨t3, r5⟩, h5, r6, h6,
    ⟨t4, r7⟩, h7, r8, h8, ⟨t5, r9⟩, h9, r10, h10, hfin⟩ := h
  dsimp at h2 h4 h6 h8 h10 hfin
  split at hfin
  · exact absurd hfin (by simp)
  · rename_i hmne
    injection hfin with hg
    subst hg
    obtain ⟨hcs1, ht1, _⟩ := takeTok_sound h1
    have hr1 := expectSpace_sound h2
    obtain ⟨hcs2, ht2, _⟩ := takeTok_sound h3
    have hr3 := expectSpace_sound h4
    obtain ⟨hcs3, ht3, _⟩ := takeTok_sound h5
    have hr5 := expectSpace_sound h6
    obtain ⟨hcs4, ht4, _⟩ := takeTok_sound h7
    have hr7 := expectSpace_sound h8
    obtain ⟨hcs5, ht5, _⟩ := takeTok_sound h9
    have hr9 := expectSpace_sound h10
    subst hcs1; subst hr1; subst hcs2; subst hr3; subst hcs3; subst hr5
    subst hcs4; subst hr7; subst hcs5; subst hr9
    refine ⟨t1, t2, r10.dropWhile (fun c => c != '\n'), ?_⟩
    refine ⟨⟨ht1, ht2, ht3, ht4, ht5, hmne, ?_, ?_, ?_⟩, rfl⟩
    · intro hc
      have := List.mem_takeWhile_imp hc
      simp at this
    · cases hr : r10.dropWhile (fun c => c != '\n') with
      | nil => exact Or.inl rfl
      | cons c r' =>
        have hcnl := dropWhile_head_false r10 c r' hr
        simp only [bne_eq_false_iff_eq] at hcnl
        subst hcnl
        exact Or.inr ⟨r', rfl⟩
    · simp [List.takeWhile_append_dropWhile, List.append_assoc, List.cons_append]

theorem isDig_digitChar {n : Nat} (h : n < 10) : isDig (Nat.digitChar n) = true := by
  interval_cases n <;> decide

theorem digitVal_digitChar {n : Nat} (h : n < 10) : digitVal (Nat.digitChar n) = n := by
  interval_cases n <;> decide

theorem isPySpace_digitChar {n : Nat} (h : n < 10) :
    isPySpace (Nat.digitChar n) = false := by
  interval_cases n <;> decide

theorem take4Digits_pad4 {y : Nat} (hy : y ≤ 9999) (R : Str) :
    take4Digits (pad4 y ++ R) = some (y, R) := by
  have d1 : y / 1000 < 10 := by omega
  have d2 : y / 100 % 10 < 10 := Nat.mod_lt _ (by norm_num)
  have d3 : y / 10 % 10 < 10 := Nat.mod_lt _ (by norm_num)
  have d4 : y % 10 < 10 := Nat.mod_lt _ (by norm_num)
  simp only [pad4, List.cons_append, List.nil_append]
  simp only [take4Digits, isDig_digitChar d1, isDig_digitChar d2, isDig_digitChar d3,
    isDig_digitChar d4, digitVal_digitChar d1, digitVal_digitChar d2,
    digitVal_digitChar d3, digitVal_digitChar d4, Bool.and_self, if_pos]
  refine congrArg some (Prod.ext ?_ rfl)
  simp only
  omega

theorem take2Digits_pad2 {n : Nat} (hn : n ≤ 99) (R : Str) :
    take2Digits (pad2 n ++ R) = some (n, R) := by
  have d1 : n / 10 < 10 := by omega
  have d2 : n % 10 < 10 := Nat.mod_lt _ (by norm_num)
  simp only [pad2, List.cons_append, List.nil_append]
  simp only [take2Digits, isDig_digitChar d1, isDig_digitChar d2,
    digitVal_digitChar d1, digitVal_digitChar d2, if_pos]
  refine congrArg some (Prod.ext ?_ rfl)
  simp only
  omega

theorem take2Digits_pad2_nil {n : Nat} (hn : n ≤ 99) :
    take2Digits (pad2 n) = some (n, []) := by
  simpa using take2Digits_pad2 hn []

theorem expectChar_cons (e : Char) (R : Str) : expectChar e (e :: R) = some R := by
  simp [expectChar]

theorem dropWhile_pad2 {n : Nat} (hn : n ≤ 99) (R : Str) :
    (pad2 n ++ R).dropWhile isPySpace = pad2 n ++ R := by
  have d1 : n / 10 < 10 := by omega
  simp [pad2, List.dropWhile_cons, isPySpace_digitChar d1]

theorem skipWs1_pad2 {n : Nat} (hn : n ≤ 99) (R : Str) :
    skipWs1 (' ' :: (pad2 n ++ R)) = some (pad2 n ++ R) := by
  have hsp : isPySpace ' ' = true := by decide
  simp [skipWs1, dropWhile_pad2 hn R, hsp]

theorem daysInMonth_le (y m : Nat) : daysInMonth y m ≤ 31 := by
  unfold daysInMonth
  split
  · split <;> omega
  · split <;> omega

theorem dtValid_bounds {y mo d h mi s : Nat} (hv : dtValid y mo d h mi s = true) :
    1 ≤ y ∧ y ≤ 9999 ∧ 1 ≤ mo ∧ mo ≤ 12 ∧ 1 ≤ d ∧ d ≤ 31 ∧
      h ≤ 23 ∧ mi ≤ 59 ∧ s ≤ 59 := by
  have hd := daysInMonth_le y mo
  simp only [dtValid, Bool.and_eq_true, decide_eq_true_eq] at hv
  omega

theorem strptime_render {y mo d h mi s : Nat} (hv : dtValid y mo d h mi s = true) :
    strptime (dateTok y mo d ++ ' ' :: timeTok h mi s) = some ⟨y, mo, d, h, mi, s⟩ := by
  obtain ⟨hy1, hy2, hmo1, hmo2, hd1, hd2, hh, hmi, hs⟩ := dtValid_bounds hv
  have hmo99 : mo ≤ 99 := by omega
  have hd99 : d ≤ 99 := by omega
  have hh99 : h ≤ 99 := by omega
  have hmi99 : mi ≤ 99 := by omega
  have hs99 : s ≤ 99 := by omega
  simp only [dateTok, timeTok, List.cons_append, List.append_assoc]
  simp only [strptime, strptimeRaw, take4Digits_pad4 hy2, Option.bind_eq_bind,
    Option.some_bind, expectChar_cons, take2Digits_pad2 hmo99, take2Digits_pad2 hd99,
    skipWs1_pad2 hh99, take2Digits_pad2 hh99, take2Digits_pad2 hmi99,
    take2Digits_pad2_nil hs99, if_pos, hv, if_true]

theorem isPySpace_pad2 {n : Nat} (hn : n ≤ 99) :
    ∀ c ∈ pad2 n, isPySpace c = false := by
  have d1 : n / 10 < 10 := by omega
  have d2 : n % 10 < 10 := Nat.mod_lt _ (by norm_num)
  intro c hc
  simp only [pad2, List.mem_cons, List.not_mem_nil, or_false] at hc
  rcases hc with h | h <;> subst h
  · exact isPySpace_digitChar d1
  · exact isPySpace_digitChar d2

theorem isPySpace_pad4 {n : Nat} (hn : n ≤ 9999) :
    ∀ c ∈ pad4 n, isPySpace c = false := by
  have d1 : n / 1000 < 10 := by omega
  have d2 : n / 100 % 10 < 10 := Nat.mod_lt _ (by norm_num)
  have d3 : n / 10 % 10 < 10 := Nat.mod_lt _ (by norm_num)
  have d4 : n % 10 < 10 := Nat.mod_lt _ (by norm_num)
  intro c hc
  simp only [pad4, List.mem_cons, List.not_mem_nil, or_false] at hc
  rcases hc with h | h | h | h <;> subst h
  · exact isPySpace_digitChar d1
  · exact isPySpace_digitChar d2
  · exact isPySpace_digitChar d3
  · exact isPySpace_digitChar d4

theorem isTok_dateTok {y mo d : Nat} (hy : y ≤ 9999) (hmo : mo ≤ 99) (hd : d ≤ 99) :
    IsTok (dateTok y mo d) := by
  constructor
  · simp [dateTok, pad4]
  · intro c hc
    rw [dateTok] at hc
    rcases List.mem_append.1 hc with h | h
    · rcases List.mem_append.1 h with h' | h'
      · exact isPySpace_pad4 hy c h'
      · rcases List.mem_cons.1 h' with h'' | h''
        · subst h''; decide
        · exact isPySpace_pad2 hmo c h''
    · rcases List.mem_cons.1 h with h'' | h''
      · subst h''; decide
      · exact isPySpace_pad2 hd c h''

theorem isTok_timeTok {h mi s : Nat} (hh : h ≤ 99) (hmi : mi ≤ 99) (hs : s ≤ 99) :
    IsTok (timeTok h mi s) := by
  constructor
  · simp [timeTok, pad2]
  · intro c hc
    rw [timeTok] at hc
    rcases List.mem_append.1 hc with h' | h'
    · rcases List.mem_append.1 h' with h'' | h''
      · exact isPySpace_pad2 hh c h''
      · rcases List.mem_cons.1 h'' with h3 | h3
        · subst h3; decide
        · exact isPySpace_pad2 hmi c h3
    · rcases List.mem_cons.1 h' with h3 | h3
      · subst h3; decide
      · exact isPySpace_pad2 hs c h3

/-! ## Dictionary lemmas for the recurrence detector -/

theorem mem_addDate (ds : List Date) (d x : Date) :
    x ∈ addDate ds d ↔ x ∈ ds ∨ x = d := by
  by_cases hd : d ∈ ds
  · simp only [addDate, if_pos hd]
    constructor
    · exact Or.inl
    · rintro (h | rfl)
      · exact h
      · exact hd
  · simp [addDate, hd]

theorem nodup_addDate {ds : List Date} (h : ds.Nodup) (d : Date) :
    (addDate ds d).Nodup := by
  by_cases hd : d ∈ ds
  · simpa [addDate, hd] using h
  · simp only [addDate, if_neg hd]
    rw [List.nodup_append]
    refine ⟨h, by simp, ?_⟩
    intro a ha hb
    simp only [List.mem_singleton] at hb
    subst hb
    exact hd ha

theorem lookupDays_updateDays_self (acc : List (Str × List Date)) (msg : Str)
    (d : Date) :
    lookupDays (updateDays acc msg d) msg
      = some (addDate ((lookupDays acc msg).getD []) d) := by
  induction acc with
  | nil => simp [updateDays, lookupDays, addDate]
  | cons p rest ih =>
    obtain ⟨k, ds⟩ := p
    by_cases hk : k = msg
    · subst hk
      simp [updateDays, lookupDays]
    · simp [updateDays, lookupDays, hk, ih]

theorem lookupDays_updateDays_ne (acc : List (Str × List Date)) {msg m : Str}
    (d : Date) (hne : m ≠ msg) :
    lookupDays (updateDays acc msg d) m = lookupDays acc m := by
  have hmsgm : ¬ msg = m := fun e => hne e.symm
  induction acc with
  | nil => simp [updateDays, lookupDays, hmsgm]
  | cons p rest ih =>
    obtain ⟨k, ds⟩ := p
    by_cases hk : k = msg
    · subst hk
      simp [updateDays, lookupDays, hmsgm]
    · by_cases hkm : k = m
      · subst hkm
        simp [updateDays, lookupDays, hk]
      · simp [updateDays, lookupDays, hk, hkm, ih]

theorem keysOf_updateDays (acc : List (Str × List Date)) (msg : Str) (d : Date) :
    (msg ∈ keysOf acc ∧ keysOf (updateDays acc msg d) = keysOf acc) ∨
    (msg ∉ keysOf acc ∧ keysOf (updateDays acc msg d) = keysOf acc ++ [msg]) := by
  induction acc with
  | nil =>
    right
    simp [updateDays, keysOf]
  | cons p rest ih =>
    obtain ⟨k, ds⟩ := p
    by_cases hk : k = msg
    · left
      subst hk
      simp [updateDays, keysOf]
    · rcases ih with ⟨hm, he⟩ | ⟨hm, he⟩
      · left
        refine ⟨List.mem_cons_of_mem _ hm, ?_⟩
        simp only [updateDays, if_neg hk, keysOf, List.map_cons] at he ⊢
        rw [he]
      · right
        refine ⟨?_, ?_⟩
        · intro hmem
          rcases List.mem_cons.1 hmem with h | h
          · exact hk h.symm
          · exact hm h
        · simp only [updateDays, if_neg hk, keysOf, List.map_cons,
            List.cons_append] at he ⊢
          rw [he]

theorem nodup_keysOf_updateDays {acc : List (Str × List Date)}
    (h : (keysOf acc).Nodup) (msg : Str) (d : Date) :
    (keysOf (updateDays acc msg d)).Nodup := by
  rcases keysOf_updateDays acc msg d with ⟨_, he⟩ | ⟨hm, he⟩
  · rwa [he]
  · rw [he, List.nodup_append]
    refine ⟨h, by simp, ?_⟩
    intro a ha hb
    simp only [List.mem_singleton] at hb
    subst hb
    exact hm ha

theorem lookupDays_eq_none {m : Str} :
    ∀ {acc : List (Str × List Date)}, m ∉ keysOf acc → lookupDays acc m = none
  | [], _ => by simp [lookupDays]
  | (k, ds) :: rest, h => by
    have hk : ¬ k = m := by
      intro e
      exact h (by simp [keysOf, e])
    have hrest : m ∉ keysOf rest := fun hm => h (List.mem_cons_of_mem _ hm)
    simp [lookupDays, hk, lookupDays_eq_none hrest]

theorem mem_keysOf_filter {p : Str × List Date → Bool}
    {acc : List (Str × List Date)} {m : Str}
    (h : m ∈ keysOf (acc.filter p)) : m ∈ keysOf acc :=
  (((List.filter_sublist acc).map Prod.fst).subset) h

theorem lookupDays_filter (p : List Date → Bool) (acc : List (Str × List Date))
    (hnd : (keysOf acc).Nodup) (m : Str) :
    lookupDays (acc.filter fun q => p q.2) m
      = (lookupDays acc m).bind fun ds => if p ds then some ds else none := by
  induction acc with
  | nil => simp [lookupDays]
  | cons q rest ih =>
    obtain ⟨k, ds⟩ := q
    have hnd' : (keysOf rest).Nodup := by
      simpa [keysOf] using (List.nodup_cons.1 (by simpa [keysOf] using hnd)).2
    have hknotin : k ∉ keysOf rest :=
      (List.nodup_cons.1 (by simpa [keysOf] using hnd)).1
    by_cases hk : k = m
    · subst hk
      cases hp : p ds
      · have hnone : lookupDays (rest.filter fun q => p q.2) k = none :=
          lookupDays_eq_none fun hmem => hknotin (mem_keysOf_filter hmem)
        simp [List.filter_cons, hp, lookupDays, hnone]
      · simp [List.filter_cons, hp, lookupDays]
    · cases hp : p ds <;>
        simp [List.filter_cons, hp, lookupDays, hk, ih hnd']

theorem errDatesOf_cons (log : Record) (rest : List Record) (m : Str) :
    errDatesOf (log :: rest) m
      = (if log.level == ERROR && log.message == m
          then [log.timestamp.date] else [])
        ++ errDatesOf rest m := by
  rw [errDatesOf, List.filter_cons]
  split
  · simp [errDatesOf]
  · simp [errDatesOf]

theorem error_days_loop (logs : List Record) :
    ∀ (acc : List (Str × List Date)) (g : Str → List Date),
      (keysOf acc).Nodup →
      (∀ m, DaysRel (lookupDays acc m) (g m)) →
      (keysOf (logs.foldl
          (fun m log =>
            if log.level == ERROR then
              updateDays m log.message log.timestamp.date
            else m) acc)).Nodup ∧
      ∀ m, DaysRel
        (lookupDays (logs.foldl
          (fun m log =>
            if log.level == ERROR then
              updateDays m log.message log.timestamp.date
            else m) acc) m)
        (g m ++ errDatesOf logs m) := by
  induction logs with
  | nil =>
    intro acc g hnd hrel
    refine ⟨hnd, fun m => ?_⟩
    simpa [errDatesOf] using hrel m
  | cons log rest ih =>
    intro acc g hnd hrel
    by_cases herr : log.level = ERROR
    · have hrel1 : ∀ m,
          DaysRel (lookupDays (updateDays acc log.message log.timestamp.date) m)
            (g m ++ if log.message == m then [log.timestamp.date] else []) := by
        intro m
        by_cases hm : log.message = m
        · subst hm
          rw [lookupDays_updateDays_self]
          have hbase := hrel log.message
          cases hb : lookupDays acc log.message with
          | none =>
            rw [hb] at hbase
            simp only [DaysRel] at hbase ⊢
            constructor
            · simpa using nodup_addDate List.nodup_nil log.timestamp.date
            · intro x
              simp [mem_addDate, hbase]
          | some ds =>
            rw [hb] at hbase
            simp only [DaysRel] at hbase ⊢
            obtain ⟨hdup, hmem⟩ := hbase
            constructor
            · simpa using nodup_addDate hdup log.timestamp.date
            · intro x
              simp [mem_addDate, hmem x]
        · rw [lookupDays_updateDays_ne _ _ (Ne.symm hm)]
          have hne : (log.message == m) = false := by simpa using hm
          have hbase := hrel m
          cases hl : lookupDays acc m with
          | none =>
            rw [hl] at hbase
            simp only [DaysRel] at hbase
            simp [DaysRel, hne, hbase]
          | some ds =>
            rw [hl] at hbase
            simp only [DaysRel] at hbase ⊢
            obtain ⟨hdup, hmem⟩ := hbase
            refine ⟨hdup, fun x => ?_⟩
            simp [hne, hmem x]
      obtain ⟨hnd2, hrel2⟩ := ih (updateDays acc log.message log.timestamp.date)
        (fun m => g m ++ if log.message == m then [log.timestamp.date] else [])
        (nodup_keysOf_updateDays hnd _ _) hrel1
      constructor
      · simpa [List.foldl_cons, herr] using hnd2
      · intro m
        have h2 := hrel2 m
        rw [errDatesOf_cons]
        simpa [List.foldl_cons, herr, List.append_assoc] using h2
    · obtain ⟨hnd', hrel'⟩ := ih acc g hnd hrel
      constructor
      · simpa [List.foldl_cons, herr] using hnd'
      · intro m
        have h2 := hrel' m
        rw [errDatesOf_cons]
        simpa [List.foldl_cons, herr] using h2

theorem error_days_spec (logs : List Record) :
    (keysOf (error_days logs)).Nodup ∧
    ∀ m, DaysRel (lookupDays (error_days logs) m) (errDatesOf logs m) := by
  have h := error_days_loop logs [] (fun _ => [])
    (by simp [keysOf]) (fun m => by simp [lookupDays, DaysRel])
  rw [error_days]
  refine ⟨h.1, fun m => ?_⟩
  simpa using h.2 m

/-! ## Claim theorems -/

/-- C1: `detect_burst_errors` takes exactly the timestamps of the records
whose level equals `"ERROR"`, sorted ascending; over the starting indices `i`
from `0` to `len - 5` in ascending order it emits the window
`times[i:i+5]` iff `times[i+4] - times[i]` is at most 60 seconds, keeping
overlapping windows without merging or deduplication. -/
theorem detect_burst_errors_spec (logs : List Record) :
    (error_times logs).Perm
      ((logs.filter fun log => log.level == ERROR).map fun log => log.timestamp) ∧
    (error_times logs).Pairwise (fun a b => dtLe a b = true) ∧
    detect_burst_errors logs = burstSpec logs := by
  refine ⟨List.mergeSort_perm _ _, ?_, ?_⟩
  · exact List.sorted_mergeSort dtLe_trans dtLe_total _
  · simp [detect_burst_errors, burstSpec, foldl_ite_append]

/-- C6 counterexample: with the service predicate supplied as the empty
string, a record whose service is `"payment"` is kept even though it does not
match the supplied predicate by equality, so the keep-iff-match claim fails. -/
theorem filter_logs_empty_pred_counterexample :
    filter_logs [rec0] (some []) none = [rec0] ∧ rec0.service ≠ ([] : Str) := by
  constructor <;> decide

/-- C6 (amended): a record is kept iff every supplied *non-empty* predicate
matches by equality (absent or empty-string predicates impose no constraint),
the kept records form a sublist of the input (stability), and the result is a
new sequence (the model is pure). -/
theorem filter_logs_amended (logs : List Record) (service host : Option Str) :
    filter_logs logs service host
      = logs.filter (fun r => specKeep service r.service && specKeep host r.host) ∧
    (filter_logs logs service host).Sublist logs := by
  constructor
  · apply List.filter_congr
    intro r _
    have hs : (!pyTruthy service || r.service == service.getD [])
        = specKeep service r.service := by
      cases service with
      | none => rfl
      | some p => cases p <;> rfl
    have hh : (!pyTruthy host || r.host == host.getD []) = specKeep host r.host := by
      cases host with
      | none => rfl
      | some p => cases p <;> rfl
    rw [hs, hh]
  · exact List.filter_sublist _

/-- C7: `filter_logs` with no predicates returns the input unchanged, and
`filter_logs` is idempotent for any predicates. -/
theorem filter_logs_identity_and_idempotent :
    (∀ logs : List Record, filter_logs logs none none = logs) ∧
    (∀ (logs : List Record) (s h : Option Str),
      filter_logs (filter_logs logs s h) s h = filter_logs logs s h) := by
  constructor
  · intro logs
    simp [filter_logs, pyTruthy]
  · intro logs s h
    simp [filter_logs, List.filter_filter, Bool.and_self]

/-- C8: with fewer than 5 records whose level equals `"ERROR"`,
`detect_burst_errors` returns the empty sequence. -/
theorem detect_burst_errors_lt5 (logs : List Record)
    (h : (logs.filter fun log => log.level == ERROR).length < 5) :
    detect_burst_errors logs = [] := by
  have hlen : (error_times logs).length
      = (logs.filter fun log => log.level == ERROR).length := by
    simp [error_times]
  have h0 : (error_times logs).length - 4 = 0 := by omega
  simp [detect_burst_errors, h0]

/-- Witness for C8 at the empty input. -/
theorem detect_burst_errors_lt5_witness :
    (([] : List Record).filter fun log => log.level == ERROR).length < 5 ∧
    detect_burst_errors [] = [] :=
  ⟨by decide, detect_burst_errors_lt5 [] (by decide)⟩

/-- C2: a message `m` is a key of `detect_long_running_issues` iff the
ERROR-level records with exactly message `m` occurred on strictly more than
one distinct calendar date (timestamps truncated to days), and its value is
that set of distinct dates (no duplicates, exactly the dates of those
records, with as many elements as there are distinct dates). Messages seen
on a single date only are excluded. -/
theorem detect_long_running_issues_spec (logs : List Record) (m : Str) :
    ((lookupDays (detect_long_running_issues logs) m).isSome
        ↔ 1 < (errDatesOf logs m).dedup.length) ∧
    ∀ ds, lookupDays (detect_long_running_issues logs) m = some ds →
      ds.Nodup ∧ (∀ x, x ∈ ds ↔ x ∈ errDatesOf logs m) ∧
      ds.length = (errDatesOf logs m).dedup.length := by
  obtain ⟨hnd, hrel⟩ := error_days_spec logs
  have hfil : lookupDays (detect_long_running_issues logs) m
      = (lookupDays (error_days logs) m).bind
          fun ds => if decide (1 < ds.length) then some ds else none := by
    rw [detect_long_running_issues]
    exact lookupDays_filter (fun ds => decide (1 < ds.length)) (error_days logs) hnd m
  cases hlook : lookupDays (error_days logs) m with
  | none =>
    have hbase := hrel m
    rw [hlook] at hbase
    simp only [DaysRel] at hbase
    have hnone : lookupDays (detect_long_running_issues logs) m = none := by
      rw [hfil, hlook]
      rfl
    constructor
    · simp [hnone, hbase]
    · intro ds hds
      rw [hnone] at hds
      exact absurd hds (by simp)
  | some ds =>
    have hbase := hrel m
    rw [hlook] at hbase
    simp only [DaysRel] at hbase
    obtain ⟨hdup, hmem⟩ := hbase
    have hperm : ds.Perm (errDatesOf logs m).dedup := by
      refine (List.perm_ext_iff_of_nodup hdup (List.nodup_dedup _)).2 ?_
      intro x
      rw [List.mem_dedup]
      exact hmem x
    have hlen : ds.length = (errDatesOf logs m).dedup.length := hperm.length_eq
    by_cases hgt : 1 < ds.length
    · have hsome : lookupDays (detect_long_running_issues logs) m = some ds := by
        rw [hfil, hlook]
        simp [hgt]
      constructor
      · rw [hsome, ← hlen]
        simpa using hgt
      · intro ds' hds'
        rw [hsome] at hds'
        injection hds' with he
        subst he
        exact ⟨hdup, hmem, hlen⟩
    · have hnone : lookupDays (detect_long_running_issues logs) m = none := by
        rw [hfil, hlook]
        simp [hgt]
      constructor
      · rw [hnone, ← hlen]
        simpa using hgt
      · intro ds' hds'
        rw [hnone] at hds'
        exact absurd hds' (by simp)

/-- C4: on every well-formed line — timestamp rendered zero-padded from
components accepted by the `datetime` constructor, level/service/host
nonempty whitespace-free tokens, message nonempty and free of newlines, all
separated by single spaces — `parse_text_log` returns the record whose five
fields are exactly the five grammar groups, with the timestamp decoded. -/
theorem parse_text_log_wellformed (y mo d h mi s : Nat) (lvl svc hst msg : Str)
    (hv : dtValid y mo d h mi s = true) (hlvl : IsTok lvl) (hsvc : IsTok svc)
    (hhst : IsTok hst) (hmsg : msg ≠ []) (hnl : '\n' ∉ msg) :
    parse_text_log
        (dateTok y mo d ++ ' ' :: timeTok h mi s ++ ' ' :: lvl ++ ' ' :: svc ++
          ' ' :: hst ++ ' ' :: msg)
      = some ⟨⟨y, mo, d, h, mi, s⟩, lvl, svc, hst, msg⟩ := by
  obtain ⟨hy1, hy2, hmo1, hmo2, hd1, hd2, hh, hmi, hs⟩ := dtValid_bounds hv
  have hmo99 : mo ≤ 99 := by omega
  have hd99 : d ≤ 99 := by omega
  have hh99 : h ≤ 99 := by omega
  have hmi99 : mi ≤ 99 := by omega
  have hs99 : s ≤ 99 := by omega
  have hdate := isTok_dateTok hy2 hmo99 hd99
  have htime := isTok_timeTok hh99 hmi99 hs99
  have hdec : Decomp
      (dateTok y mo d ++ ' ' :: timeTok h mi s ++ ' ' :: lvl ++ ' ' :: svc ++
        ' ' :: hst ++ ' ' :: msg)
      (dateTok y mo d) (timeTok h mi s) lvl svc hst msg [] :=
    ⟨hdate, htime, hlvl, hsvc, hhst, hmsg, hnl, Or.inl rfl, by simp⟩
  have hpm := pyMatch_complete hdec
  simp only [parse_text_log, hpm, strptime_render hv]

/-- Witness for C4 on the spec's end-to-end sample line. -/
theorem parse_text_log_wellformed_witness :
    dtValid 2025 1 1 10 0 0 = true ∧ IsTok "ERROR".toList ∧
    IsTok "payment".toList ∧ IsTok "host2".toList ∧
    "Payment failed".toList ≠ [] ∧ '\n' ∉ "Payment failed".toList ∧
    parse_text_log
        (dateTok 2025 1 1 ++ ' ' :: timeTok 10 0 0 ++ ' ' :: "ERROR".toList ++
          ' ' :: "payment".toList ++ ' ' :: "host2".toList ++
          ' ' :: "Payment failed".toList)
      = some ⟨⟨2025, 1, 1, 10, 0, 0⟩, "ERROR".toList, "payment".toList,
          "host2".toList, "Payment failed".toList⟩ :=
  ⟨by decide, by decide, by decide, by decide, by decide, by decide,
    parse_text_log_wellformed 2025 1 1 10 0 0 "ERROR".toList "payment".toList
      "host2".toList "Payment failed".toList (by decide) (by decide) (by decide)
      (by decide) (by decide) (by decide)⟩

/-- C3 counterexample: the line `2025-1-1 2:3:4 ERROR payment host1 m` has a
timestamp that does not parse under the zero-padded fixed layout, yet
`parse_text_log` returns a record rather than `None`: `strptime` also accepts
1-digit month/day/hour/minute/second fields. -/
theorem parse_text_log_unpadded_counterexample :
    strptimePadded "2025-1-1 2:3:4".toList = none ∧
    parse_text_log "2025-1-1 2:3:4 ERROR payment host1 m".toList
      = some ⟨⟨2025, 1, 1, 2, 3, 4⟩, "ERROR".toList, "payment".toList,
          "host1".toList, "m".toList⟩ :=
  ⟨rfl, rfl⟩

/-- C3 (amended): `parse_text_log` returns `None` exactly when the input's
first line does not decompose into the token shape
`<date> <time> <level> <service> <host> <message...>` with a timestamp
accepted by `strptime`'s actual layout (four-digit year; month, day, hour,
minute, second of one or two digits within the `datetime` ranges). No
exception escapes and no partial record is produced: the function is total
with the single `none` failure value. -/
theorem parse_text_log_none_iff (cs : Str) :
    parse_text_log cs = none ↔
      ¬ ∃ t1 t2 lvl svc hst msg rest dt,
          Decomp cs t1 t2 lvl svc hst msg rest ∧
          strptime (t1 ++ ' ' :: t2) = some dt := by
  constructor
  · intro hnone hex
    obtain ⟨t1, t2, lvl, svc, hst, msg, rest, dt, hdec, hts⟩ := hex
    have hpm := pyMatch_complete hdec
    rw [parse_text_log, hpm] at hnone
    simp only [hts] at hnone
    exact absurd hnone (by simp)
  · intro hne
    cases hm : pyMatch cs with
    | none => simp [parse_text_log, hm]
    | some g =>
      cases hts : strptime g.g1 with
      | none => simp [parse_text_log, hm, hts]
      | some dt =>
        exfalso
        obtain ⟨t1, t2, rest, hdec, hg1⟩ := pyMatch_sound hm
        exact hne ⟨t1, t2, g.g2, g.g3, g.g4, g.g5, rest, dt, hdec, by
          rw [← hg1]; exact hts⟩

/-- C5 counterexample: a structured entry carrying only a timestamp yields a
record missing its other four fields: the loader decodes the timestamp but
copies the rest of the entry without checking the remaining keys. -/
theorem read_logs_partial_record_counterexample :
    read_logs isoDec0
        (some (some [⟨some "2025-01-01T10:00:00".toList, none, none, none, none⟩]))
        none
      = .ok [⟨some dt0, none, none, none, none⟩] ∧
    fullyValid ⟨some dt0, none, none, none, none⟩ = false :=
  ⟨rfl, rfl⟩

/-- C5 (amended): provided every supplied structured entry carries all five
keys, every record `read_logs` returns is fully valid — all five fields
populated and the timestamp decoded. Malformed text lines yield no record,
and a structured entry without a decodable timestamp aborts the load instead
of producing a partial record. -/
theorem read_logs_valid (isoDecode : Str → Option DateTime)
    (jsonSrc : Option (Option (List JsonEntry)))
    (textSrc : Option (Option (List Str))) (out : List PRecord)
    (hjson : ∀ entries, jsonSrc = some (some entries) → ∀ e ∈ entries,
      e.level.isSome ∧ e.service.isSome ∧ e.host.isSome ∧ e.message.isSome)
    (hok : read_logs isoDecode jsonSrc textSrc = .ok out) :
    ∀ r ∈ out, fullyValid r = true := by
  have hparse : ∀ lines : List Str, ∀ r ∈ parseLines lines, fullyValid r = true := by
    intro lines r hr
    simp only [parseLines, List.mem_filterMap] at hr
    obtain ⟨line, _, hline⟩ := hr
    rw [Option.map_eq_some'] at hline
    obtain ⟨rec, _, hrec⟩ := hline
    rw [← hrec]
    rfl
  have hdec : ∀ entries rs, (∀ e ∈ entries,
        e.level.isSome ∧ e.service.isSome ∧ e.host.isSome ∧ e.message.isSome) →
      decodeEntries isoDecode entries = .ok rs → ∀ r ∈ rs, fullyValid r = true := by
    intro entries
    induction entries with
    | nil =>
      intro rs _ hrs r hr
      rw [decodeEntries] at hrs
      injection hrs with h
      subst h
      exact absurd hr (by simp)
    | cons e rest ih =>
      intro rs hall hrs r hr
      rw [decodeEntries] at hrs
      cases he : decodeEntry isoDecode e with
      | error msg => rw [he] at hrs; exact absurd hrs (by simp)
      | ok r0 =>
        rw [he] at hrs
        cases hrest : decodeEntries isoDecode rest with
        | error msg => rw [hrest] at hrs; exact absurd hrs (by simp)
        | ok rs0 =>
          rw [hrest] at hrs
          injection hrs with h
          subst h
          rcases List.mem_cons.1 hr with hr0 | hr0
          · subst hr0
            obtain ⟨hl, hs, hh, hm⟩ := hall e (List.mem_cons_self _ _)
            cases hts : e.timestamp with
            | none =>
              simp only [decodeEntry, hts] at he
              exact absurd he (by simp)
            | some s =>
              cases hdt : isoDecode s with
              | none =>
                simp only [decodeEntry, hts, hdt] at he
                exact absurd he (by simp)
              | some dt =>
                simp only [decodeEntry, hts, hdt] at he
                injection he with he'
                rw [← he']
                simp [fullyValid, hl, hs, hh, hm]
          · exact ih rs0 (fun x hx => hall x (List.mem_cons_of_mem _ hx)) hrest r hr0
  rw [read_logs.eq_def] at hok
  split at hok
  · exact absurd hok (by simp)
  · split at hok
    · exact absurd hok (by simp)
    · rename_i js hjs
      injection hok with h
      subst h
      intro r hr
      rcases List.mem_append.1 hr with hr | hr
      · cases hsrc : jsonSrc with
        | none => rw [hsrc] at hjs; injection hjs with h'; subst h'; exact absurd hr (by simp)
        | some inner =>
          cases hin : inner with
          | none =>
            rw [hsrc, hin] at hjs
            injection hjs with h'
            subst h'
            exact absurd hr (by simp)
          | some entries =>
            rw [hsrc, hin] at hjs
            exact hdec entries js (hjson entries (by rw [hsrc, hin])) hjs r hr
      · cases htxt : textSrc with
        | none => rw [htxt] at hr; exact absurd hr (by simp)
        | some inner =>
          cases hin : inner with
          | none => rw [htxt, hin] at hr; exact absurd hr (by simp)
          | some lines =>
            rw [htxt, hin] at hr
            exact hparse lines r hr

/-- Witness for C5 (amended) on a fully-keyed JSON entry plus one text line. -/
theorem read_logs_valid_witness :
    (∀ entries,
        (some (some [entry0]) : Option (Option (List JsonEntry)))
          = some (some entries) → ∀ e ∈ entries,
        e.level.isSome ∧ e.service.isSome ∧ e.host.isSome ∧ e.message.isSome) ∧
    read_logs isoDec0 (some (some [entry0]))
        (some (some ["2025-01-01 10:00:00 ERROR payment host1 Done".toList]))
      = .ok [⟨some dt0, some "INFO".toList, some "api".toList, some "host3".toList,
              some "ok".toList⟩,
             ⟨some ⟨2025, 1, 1, 10, 0, 0⟩, some "ERROR".toList,
              some "payment".toList, some "host1".toList, some "Done".toList⟩] ∧
    ∀ r ∈ [(⟨some dt0, some "INFO".toList, some "api".toList, some "host3".toList,
              some "ok".toList⟩ : PRecord),
           ⟨some ⟨2025, 1, 1, 10, 0, 0⟩, some "ERROR".toList,
              some "payment".toList, some "host1".toList, some "Done".toList⟩],
      fullyValid r = true := by
  refine ⟨?_, ?_, ?_⟩
  · intro entries he
    injection he with h1
    injection h1 with h2
    subst h2
    decide
  · rfl
  · refine read_logs_valid isoDec0 (some (some [entry0]))
      (some (some ["2025-01-01 10:00:00 ERROR payment host1 Done".toList])) _
      ?_ rfl
    intro entries he
    injection he with h1
    injection h1 with h2
    subst h2
    decide

/-- C9: with neither source supplied, the loader fails with the
`InvalidInput` error — no source content is ever consulted and no record
sequence is produced. -/
theorem read_logs_no_sources (isoDecode : Str → Option DateTime) :
    read_logs isoDecode none none
      = .error "At least one input file must be provided".toList :=
  rfl

/-- C10: supplying the empty string for `service` (or `host`) behaves exactly
as if that predicate were absent. -/
theorem filter_logs_empty_string_is_absent (logs : List Record)
    (service host : Option Str) :
    filter_logs logs (some []) host = filter_logs logs none host ∧
    filter_logs logs service (some []) = filter_logs logs service none := by
  constructor <;> rfl

end LogAnalyzer
